import Mathlib

/-!
Shallow embedding of the QMC2 RC4-variant stream-cipher engine
(`um_crypto/qmc/src/v2_rc4/cipher.rs`) and proofs of its specification
properties.

Buffers and keys are `List Nat` (each element a byte value); machine
indices are `Nat`.  The three external collaborators (the RC4 keystream
generator, the key hash, and `get_segment_key`) live in sibling modules
that are not part of the sources verified here; the engine uses them as
opaque pure functions, so the embedding carries them as parameters: the
hash scalar has an abstract type `H`, and `gsk` is the
`get_segment_key(index, seed_byte, hash)` collaborator.  In the Rust
code a `zip` against the keystream iterator stops when the 5632-byte
cache runs out, leaving trailing bytes untouched; `List.getD _ _ 0`
together with `x ^^^ 0 = x` models exactly that behavior.
-/

/-- `FIRST_SEGMENT_SIZE` from cipher.rs line 6. -/
def FIRST_SEGMENT_SIZE : Nat := 0x0080

/-- `OTHER_SEGMENT_SIZE` from cipher.rs line 7. -/
def OTHER_SEGMENT_SIZE : Nat := 0x1400

/-- `RC4_STREAM_CACHE_SIZE` from cipher.rs line 8. -/
def RC4_STREAM_CACHE_SIZE : Nat := OTHER_SEGMENT_SIZE + 512

/-- The engine state of `struct QMC2RC4` (cipher.rs lines 10-15): the key
hash, the owned key bytes, and the precomputed keystream cache, plus the
`get_segment_key` collaborator `gsk` it was linked against. -/
structure QMC2RC4 (H : Type) where
  gsk : Nat → Nat → H → Nat
  hash : H
  key : List Nat
  key_stream : List Nat

namespace QMC2RC4

variable {H : Type}

/-- Modelled from the spec: `QMC2RC4::new` (cipher.rs lines 18-28) builds the
engine from the key via the collaborators `hash(key)` and `RC4::derive`,
whose modules are outside the verified sources.  Per spec sections 4.1, 6
and 7, construction must fail on an empty key (all derivation uses
`index % n`, and the RC4 key schedule itself reduces modulo the key
length), so the model returns `none` exactly for the empty key and
otherwise the engine with the collaborator-derived hash and a keystream
cache of `RC4_STREAM_CACHE_SIZE` bytes requested from the generator. -/
def new (g : Nat → Nat → H → Nat) (keyHash : List Nat → H)
    (ksGen : List Nat → Nat → List Nat) (key : List Nat) : Option (QMC2RC4 H) :=
  if key = [] then
    none
  else
    some { gsk := g, hash := keyHash key, key := key,
           key_stream := ksGen key RC4_STREAM_CACHE_SIZE }

/-- The per-byte XOR mask of `process_first_segment` (cipher.rs lines 33-36):
`key[get_segment_key(o, key[o % n], hash) % n]` for absolute offset `o`. -/
def firstMask (c : QMC2RC4 H) (o : Nat) : Nat :=
  c.key.getD (c.gsk o (c.key.getD (o % c.key.length) 0) c.hash % c.key.length) 0

/-- `QMC2RC4::process_first_segment` (cipher.rs lines 30-38): XOR each byte
with `firstMask` at its absolute offset, pairing the buffer with the
offset iterator `offset..`. -/
def process_first_segment (c : QMC2RC4 H) (data : List Nat) (offset : Nat) : List Nat :=
  List.zipWith (fun d o => d ^^^ firstMask c o) data (List.range' offset data.length)

/-- The per-block `skip` of `process_other_segment` (cipher.rs lines 46-48):
`get_segment_key(id, key[id % n], hash) & 0x1FF`. -/
def skipOf (c : QMC2RC4 H) (id : Nat) : Nat :=
  c.gsk id (c.key.getD (id % c.key.length) 0) c.hash &&& 0x1FF

/-- `QMC2RC4::process_other_segment` (cipher.rs lines 40-55): with
`id = offset / OTHER_SEGMENT_SIZE`, `block_offset = offset % OTHER_SEGMENT_SIZE`
and the derived `skip`, XOR byte `i` of the buffer with
`key_stream[skip + block_offset + i]`.  The Rust `zip` leaves bytes beyond
the cache untouched, which `getD _ _ 0` reproduces. -/
def process_other_segment (c : QMC2RC4 H) (data : List Nat) (offset : Nat) : List Nat :=
  let block_offset := offset % OTHER_SEGMENT_SIZE
  let skip := skipOf c (offset / OTHER_SEGMENT_SIZE)
  List.zipWith (fun d i => d ^^^ c.key_stream.getD (skip + block_offset + i) 0)
    data (List.range' 0 data.length)

/-- The trailing `while !buffer.is_empty()` loop of `decrypt` (cipher.rs
lines 82-88): repeatedly split off `min(OTHER_SEGMENT_SIZE, len)` bytes,
transform them as an other-segment chunk, and advance the offset. -/
def decryptBlocks (c : QMC2RC4 H) (data : List Nat) (offset : Nat) : List Nat :=
  if h : data = [] then
    []
  else
    let n := min OTHER_SEGMENT_SIZE data.length
    process_other_segment c (data.take n) offset ++
      decryptBlocks c (data.drop n) (offset + n)
termination_by data.length
decreasing_by
  simp only [List.length_drop]
  have hd : data.length ≠ 0 := fun hz => h (List.length_eq_zero.mp hz)
  have : 0 < min OTHER_SEGMENT_SIZE data.length := by
    apply lt_min
    · decide
    · omega
  omega

/-- Steps 2 and 3 of `decrypt` (cipher.rs lines 71-88): if the offset is not
block-aligned, first split off `min(OTHER_SEGMENT_SIZE - excess, len)`
bytes as one other-segment chunk, then run the trailing block loop. -/
def decryptRest (c : QMC2RC4 H) (data : List Nat) (offset : Nat) : List Nat :=
  if offset % OTHER_SEGMENT_SIZE = 0 then
    decryptBlocks c data offset
  else
    let excess := offset % OTHER_SEGMENT_SIZE
    let n := min (OTHER_SEGMENT_SIZE - excess) data.length
    process_other_segment c (data.take n) offset ++
      decryptBlocks c (data.drop n) (offset + n)

/-- `QMC2RC4::decrypt` (cipher.rs lines 57-89): when the offset is inside
the first segment, split off `min(FIRST_SEGMENT_SIZE - offset, len)` bytes
for the first-segment transform, then hand the remainder to the
other-segment stages. -/
def decrypt (c : QMC2RC4 H) (data : List Nat) (offset : Nat) : List Nat :=
  if offset < FIRST_SEGMENT_SIZE then
    let n := min (FIRST_SEGMENT_SIZE - offset) data.length
    process_first_segment c (data.take n) offset ++
      decryptRest c (data.drop n) (offset + n)
  else
    decryptRest c data offset

/-- The per-byte XOR mask of an other-segment byte at absolute offset `o`:
cache entry `skip + (o % OTHER_SEGMENT_SIZE)` of the block
`o / OTHER_SEGMENT_SIZE`. -/
def otherMask (c : QMC2RC4 H) (o : Nat) : Nat :=
  c.key_stream.getD (skipOf c (o / OTHER_SEGMENT_SIZE) + o % OTHER_SEGMENT_SIZE) 0

/-- The per-byte XOR mask of the whole cipher at absolute offset `o`. -/
def byteMask (c : QMC2RC4 H) (o : Nat) : Nat :=
  if o < FIRST_SEGMENT_SIZE then firstMask c o else otherMask c o

/-! ### Elementary list access lemmas -/

lemma getD_eq_get (l : List Nat) (i : Nat) (h : i < l.length) :
    l.getD i 0 = l[i] := List.getD_eq_getElem l 0 h

lemma getD_take (l : List Nat) (n i : Nat) (h1 : i < n) (h2 : i < l.length) :
    (l.take n).getD i 0 = l.getD i 0 := by
  rw [getD_eq_get _ _ (by simp; omega), getD_eq_get _ _ h2, List.getElem_take]

lemma getD_drop (l : List Nat) (n i : Nat) (h : n + i < l.length) :
    (l.drop n).getD i 0 = l.getD (n + i) 0 := by
  rw [getD_eq_get _ _ (by simp; omega), getD_eq_get _ _ h, List.getElem_drop]

lemma getD_append_left (a b : List Nat) (i : Nat) (h : i < a.length) :
    (a ++ b).getD i 0 = a.getD i 0 := by
  rw [getD_eq_get _ _ (by simp; omega), getD_eq_get _ _ h,
    List.getElem_append_left]

lemma getD_append_right (a b : List Nat) (i : Nat) (h : a.length ≤ i)
    (h2 : i - a.length < b.length) :
    (a ++ b).getD i 0 = b.getD (i - a.length) 0 := by
  rw [getD_eq_get _ _ (by simp; omega), getD_eq_get _ _ h2,
    List.getElem_append_right h]

/-! ### Length preservation -/

lemma length_process_first_segment (c : QMC2RC4 H) (data : List Nat) (offset : Nat) :
    (process_first_segment c data offset).length = data.length := by
  simp [process_first_segment]

lemma length_process_other_segment (c : QMC2RC4 H) (data : List Nat) (offset : Nat) :
    (process_other_segment c data offset).length = data.length := by
  simp [process_other_segment]

lemma length_decryptBlocks (c : QMC2RC4 H) (data : List Nat) (offset : Nat) :
    (decryptBlocks c data offset).length = data.length := by
  suffices hS : ∀ (L : Nat) (data : List Nat) (offset : Nat), data.length ≤ L →
      (decryptBlocks c data offset).length = data.length by
    exact hS data.length data offset le_rfl
  intro L
  induction L with
  | zero =>
    intro data offset hL
    have hd : data = [] := List.length_eq_zero.mp (by omega)
    rw [decryptBlocks]
    simp [hd]
  | succ L ih =>
    intro data offset hL
    rw [decryptBlocks]
    by_cases hd : data = []
    · simp [hd]
    · have hlen : 0 < data.length := List.length_pos.mpr hd
      have hn : 0 < min OTHER_SEGMENT_SIZE data.length := by
        apply lt_min
        · decide
        · omega
      simp only [dif_neg hd, List.length_append, length_process_other_segment,
        List.length_take]
      rw [ih _ _ (by simp; omega)]
      simp only [List.length_drop]
      omega

lemma length_decryptRest (c : QMC2RC4 H) (data : List Nat) (offset : Nat) :
    (decryptRest c data offset).length = data.length := by
  rw [decryptRest]
  by_cases ha : offset % OTHER_SEGMENT_SIZE = 0
  · rw [if_pos ha, length_decryptBlocks]
  · rw [if_neg ha]
    simp only [List.length_append, length_process_other_segment, List.length_take,
      length_decryptBlocks, List.length_drop]
    omega

lemma length_decrypt (c : QMC2RC4 H) (data : List Nat) (offset : Nat) :
    (decrypt c data offset).length = data.length := by
  rw [decrypt]
  by_cases ho : offset < FIRST_SEGMENT_SIZE
  · rw [if_pos ho]
    simp only [List.length_append, length_process_first_segment, List.length_take,
      length_decryptRest, List.length_drop]
    omega
  · rw [if_neg ho, length_decryptRest]

/-! ### Pointwise characterization of the transforms -/

lemma process_first_segment_getD (c : QMC2RC4 H) (data : List Nat) (offset i : Nat)
    (h : i < data.length) :
    (process_first_segment c data offset).getD i 0 =
      data.getD i 0 ^^^ firstMask c (offset + i) := by
  rw [getD_eq_get _ _ (by rw [length_process_first_segment]; exact h),
    getD_eq_get _ _ h]
  simp only [process_first_segment]
  rw [List.getElem_zipWith, List.getElem_range', Nat.one_mul]

lemma process_other_segment_getD (c : QMC2RC4 H) (data : List Nat) (offset i : Nat)
    (h : i < data.length) :
    (process_other_segment c data offset).getD i 0 =
      data.getD i 0 ^^^
        c.key_stream.getD
          (skipOf c (offset / OTHER_SEGMENT_SIZE) + offset % OTHER_SEGMENT_SIZE + i) 0 := by
  rw [getD_eq_get _ _ (by rw [length_process_other_segment]; exact h),
    getD_eq_get _ _ h]
  simp only [process_other_segment]
  rw [List.getElem_zipWith, List.getElem_range', Nat.one_mul, Nat.zero_add]

/-- Offset arithmetic inside one block: advancing by `i` bytes without
crossing the block boundary keeps the block id and adds `i` to the
block-local offset. -/
lemma block_arith (off i : Nat)
    (h : off % OTHER_SEGMENT_SIZE + i < OTHER_SEGMENT_SIZE) :
    (off + i) / OTHER_SEGMENT_SIZE = off / OTHER_SEGMENT_SIZE ∧
      (off + i) % OTHER_SEGMENT_SIZE = off % OTHER_SEGMENT_SIZE + i := by
  have hB : 0 < OTHER_SEGMENT_SIZE := by decide
  have hdecomp : off = OTHER_SEGMENT_SIZE * (off / OTHER_SEGMENT_SIZE) +
      off % OTHER_SEGMENT_SIZE := (Nat.div_add_mod off OTHER_SEGMENT_SIZE).symm
  constructor
  · conv_lhs => rw [hdecomp]
    rw [Nat.add_assoc, Nat.mul_add_div hB, Nat.div_eq_of_lt h, Nat.add_zero]
  · conv_lhs => rw [hdecomp]
    rw [Nat.add_assoc, Nat.mul_add_mod, Nat.mod_eq_of_lt h]

/-- Pointwise characterization of the trailing block loop: starting from a
block-aligned offset, byte `i` is XORed with `otherMask` at its absolute
offset. -/
lemma decryptBlocks_getD (c : QMC2RC4 H) (data : List Nat) (offset i : Nat)
    (ha : offset % OTHER_SEGMENT_SIZE = 0) (hi : i < data.length) :
    (decryptBlocks c data offset).getD i 0 =
      data.getD i 0 ^^^ otherMask c (offset + i) := by
  suffices hS : ∀ (L : Nat) (data : List Nat) (offset i : Nat), data.length ≤ L →
      offset % OTHER_SEGMENT_SIZE = 0 → i < data.length →
      (decryptBlocks c data offset).getD i 0 =
        data.getD i 0 ^^^ otherMask c (offset + i) by
    exact hS data.length data offset i le_rfl ha hi
  clear ha hi data offset i
  intro L
  induction L with
  | zero =>
    intro data offset i hL ha hi
    omega
  | succ L ih =>
    intro data offset i hL ha hi
    have hd : data ≠ [] := by
      intro hz
      rw [hz] at hi
      simp at hi
    rw [decryptBlocks, dif_neg hd]
    set n := min OTHER_SEGMENT_SIZE data.length with hn
    have hn1 : 0 < n := by
      apply lt_min
      · decide
      · omega
    have hnle : n ≤ data.length := min_le_right _ _
    have hnB : n ≤ OTHER_SEGMENT_SIZE := min_le_left _ _
    by_cases hcase : i < n
    · rw [getD_append_left _ _ _
        (by rw [length_process_other_segment, List.length_take]; omega)]
      rw [process_other_segment_getD _ _ _ _ (by rw [List.length_take]; omega)]
      rw [getD_take _ _ _ hcase hi]
      have harith := block_arith offset i (by omega)
      rw [otherMask, harith.1, harith.2, ha, Nat.zero_add, Nat.add_zero]
    · have hlt : n < data.length := by omega
      have hnfull : n = OTHER_SEGMENT_SIZE := by omega
      rw [getD_append_right _ _ _
        (by rw [length_process_other_segment, List.length_take]; omega)
        (by rw [length_process_other_segment, List.length_take, length_decryptBlocks,
          List.length_drop]; omega)]
      rw [length_process_other_segment, List.length_take, min_eq_left hnle]
      rw [ih _ _ _ (by simp; omega)
        (by rw [hnfull, Nat.add_mod, ha, Nat.mod_self]; simp)
        (by simp; omega)]
      rw [getD_drop _ _ _ (by omega)]
      have h1 : n + (i - n) = i := by omega
      have h2 : offset + n + (i - n) = offset + i := by omega
      rw [h1, h2]

/-- Pointwise characterization of steps 2-3 of `decrypt`: for offsets past
the first segment, byte `i` is XORed with `otherMask` at its absolute
offset. -/
lemma decryptRest_getD (c : QMC2RC4 H) (data : List Nat) (offset i : Nat)
    (hi : i < data.length) :
    (decryptRest c data offset).getD i 0 =
      data.getD i 0 ^^^ otherMask c (offset + i) := by
  rw [decryptRest]
  by_cases ha : offset % OTHER_SEGMENT_SIZE = 0
  · rw [if_pos ha, decryptBlocks_getD _ _ _ _ ha hi]
  · rw [if_neg ha]
    set ex := offset % OTHER_SEGMENT_SIZE with hex
    have hexlt : ex < OTHER_SEGMENT_SIZE := Nat.mod_lt _ (by decide)
    set n := min (OTHER_SEGMENT_SIZE - ex) data.length with hn
    have hnle : n ≤ data.length := min_le_right _ _
    by_cases hcase : i < n
    · rw [getD_append_left _ _ _
        (by rw [length_process_other_segment, List.length_take]; omega)]
      rw [process_other_segment_getD _ _ _ _ (by rw [List.length_take]; omega)]
      rw [getD_take _ _ _ hcase hi]
      have harith := block_arith offset i (by omega)
      rw [otherMask, harith.1, harith.2, ← hex, Nat.add_assoc]
    · have hlt : n < data.length := by omega
      have hnfull : n = OTHER_SEGMENT_SIZE - ex := by omega
      rw [getD_append_right _ _ _
        (by rw [length_process_other_segment, List.length_take]; omega)
        (by rw [length_process_other_segment, List.length_take, length_decryptBlocks,
          List.length_drop]; omega)]
      rw [length_process_other_segment, List.length_take, min_eq_left hnle]
      have halign : (offset + n) % OTHER_SEGMENT_SIZE = 0 := by
        have hdecomp : offset = OTHER_SEGMENT_SIZE * (offset / OTHER_SEGMENT_SIZE) + ex :=
          (Nat.div_add_mod offset OTHER_SEGMENT_SIZE).symm
        rw [hnfull]
        conv_lhs => rw [hdecomp]
        have hstep : OTHER_SEGMENT_SIZE * (offset / OTHER_SEGMENT_SIZE) + ex +
            (OTHER_SEGMENT_SIZE - ex) =
            OTHER_SEGMENT_SIZE * (offset / OTHER_SEGMENT_SIZE + 1) := by
          rw [Nat.mul_add, Nat.mul_one]
          omega
        rw [hstep, Nat.mul_mod_right]
      rw [decryptBlocks_getD _ _ _ _ halign (by simp; omega)]
      rw [getD_drop _ _ _ (by omega)]
      have h1 : n + (i - n) = i := by omega
      have h2 : offset + n + (i - n) = offset + i := by omega
      rw [h1, h2]

/-- Master pointwise characterization of `decrypt`: byte `i` of the output
is the corresponding input byte XORed with `byteMask` at absolute offset
`offset + i`. -/
lemma decrypt_getD (c : QMC2RC4 H) (data : List Nat) (offset i : Nat)
    (hi : i < data.length) :
    (decrypt c data offset).getD i 0 =
      data.getD i 0 ^^^ byteMask c (offset + i) := by
  rw [decrypt]
  by_cases ho : offset < FIRST_SEGMENT_SIZE
  · rw [if_pos ho]
    set n := min (FIRST_SEGMENT_SIZE - offset) data.length with hn
    have hnle : n ≤ data.length := min_le_right _ _
    by_cases hcase : i < n
    · rw [getD_append_left _ _ _
        (by rw [length_process_first_segment, List.length_take]; omega)]
      rw [process_first_segment_getD _ _ _ _ (by rw [List.length_take]; omega)]
      rw [getD_take _ _ _ hcase hi]
      rw [byteMask, if_pos (by omega)]
    · have hlt : n < data.length := by omega
      have hnfull : n = FIRST_SEGMENT_SIZE - offset := by omega
      rw [getD_append_right _ _ _
        (by rw [length_process_first_segment, List.length_take]; omega)
        (by rw [length_process_first_segment, List.length_take, length_decryptRest,
          List.length_drop]; omega)]
      rw [length_process_first_segment, List.length_take, min_eq_left hnle]
      rw [decryptRest_getD _ _ _ _ (by simp; omega)]
      rw [getD_drop _ _ _ (by omega)]
      have h1 : n + (i - n) = i := by omega
      have h2 : offset + n + (i - n) = offset + i := by omega
      rw [h1, h2, byteMask, if_neg (by omega)]
  · rw [if_neg ho]
    rw [decryptRest_getD _ _ _ _ hi]
    rw [byteMask, if_neg (by omega)]

/-! ### The chunking plan of the other-segment stages

`restPlan` records, for a buffer length and starting offset, the
`(chunk length, offset)` of every call that `decryptRest` (steps 2-3 of
`decrypt`) makes to `process_other_segment`, and `applyPlan` replays such
a plan; `blocksPlan` is the portion produced by the trailing while loop.
The link lemmas prove the plan faithful to `decryptRest`. -/

def applyPlan (c : QMC2RC4 H) : List Nat → List (Nat × Nat) → List Nat
  | data, [] => data
  | data, (n, off) :: rest =>
      process_other_segment c (data.take n) off ++ applyPlan c (data.drop n) rest

def blocksPlan (L offset : Nat) : List (Nat × Nat) :=
  if L = 0 then
    []
  else
    let n := min OTHER_SEGMENT_SIZE L
    (n, offset) :: blocksPlan (L - n) (offset + n)
termination_by L
decreasing_by
  have : 0 < min OTHER_SEGMENT_SIZE L := by
    apply lt_min
    · decide
    · omega
  omega

def restPlan (L offset : Nat) : List (Nat × Nat) :=
  if offset % OTHER_SEGMENT_SIZE = 0 then
    blocksPlan L offset
  else
    let n := min (OTHER_SEGMENT_SIZE - offset % OTHER_SEGMENT_SIZE) L
    (n, offset) :: blocksPlan (L - n) (offset + n)

lemma decryptBlocks_eq_applyPlan (c : QMC2RC4 H) (data : List Nat) (offset : Nat) :
    decryptBlocks c data offset = applyPlan c data (blocksPlan data.length offset) := by
  suffices hS : ∀ (L : Nat) (data : List Nat) (offset : Nat), data.length ≤ L →
      decryptBlocks c data offset = applyPlan c data (blocksPlan data.length offset) by
    exact hS data.length data offset le_rfl
  intro L
  induction L with
  | zero =>
    intro data offset hL
    have hd : data = [] := List.length_eq_zero.mp (by omega)
    subst hd
    rw [decryptBlocks, blocksPlan]
    simp [applyPlan]
  | succ L ih =>
    intro data offset hL
    by_cases hd : data = []
    · subst hd
      rw [decryptBlocks, blocksPlan]
      simp [applyPlan]
    · have hlen : 0 < data.length := List.length_pos.mpr hd
      rw [decryptBlocks, dif_neg hd, blocksPlan, if_neg (by omega)]
      simp only [applyPlan]
      have hn : 0 < min OTHER_SEGMENT_SIZE data.length := by
        apply lt_min
        · decide
        · omega
      rw [ih _ _ (by simp; omega), List.length_drop]

lemma decryptRest_eq_applyPlan (c : QMC2RC4 H) (data : List Nat) (offset : Nat) :
    decryptRest c data offset = applyPlan c data (restPlan data.length offset) := by
  rw [decryptRest, restPlan]
  by_cases ha : offset % OTHER_SEGMENT_SIZE = 0
  · rw [if_pos ha, if_pos ha, decryptBlocks_eq_applyPlan]
  · rw [if_neg ha, if_neg ha]
    simp only [applyPlan]
    rw [decryptBlocks_eq_applyPlan, List.length_drop]

/-- Every offset is completed to a block boundary by the complement of its
block-local excess. -/
lemma offset_add_compl_mod (offset : Nat) :
    (offset + (OTHER_SEGMENT_SIZE - offset % OTHER_SEGMENT_SIZE)) %
      OTHER_SEGMENT_SIZE = 0 := by
  simp only [OTHER_SEGMENT_SIZE]
  omega

/-- Every entry of a block-aligned `blocksPlan` is a nonempty chunk of at
most one block starting at a block boundary. -/
lemma blocksPlan_mem (L offset : Nat) (ha : offset % OTHER_SEGMENT_SIZE = 0) :
    ∀ p ∈ blocksPlan L offset,
      0 < p.1 ∧ p.1 ≤ OTHER_SEGMENT_SIZE ∧ p.2 % OTHER_SEGMENT_SIZE = 0 := by
  suffices hS : ∀ (F L offset : Nat), L ≤ F → offset % OTHER_SEGMENT_SIZE = 0 →
      ∀ p ∈ blocksPlan L offset,
        0 < p.1 ∧ p.1 ≤ OTHER_SEGMENT_SIZE ∧ p.2 % OTHER_SEGMENT_SIZE = 0 by
    exact hS L L offset le_rfl ha
  clear ha L offset
  intro F
  induction F with
  | zero =>
    intro L offset hF ha p hp
    have hL : L = 0 := by omega
    subst hL
    rw [blocksPlan] at hp
    simp at hp
  | succ F ih =>
    intro L offset hF ha p hp
    by_cases hL : L = 0
    · subst hL
      rw [blocksPlan] at hp
      simp at hp
    · rw [blocksPlan, if_neg hL] at hp
      have hn : 0 < min OTHER_SEGMENT_SIZE L := by
        apply lt_min
        · decide
        · omega
      rcases List.mem_cons.mp hp with hhead | htail
      · subst hhead
        exact ⟨hn, min_le_left _ _, ha⟩
      · by_cases hfit : L ≤ OTHER_SEGMENT_SIZE
        · have : min OTHER_SEGMENT_SIZE L = L := min_eq_right hfit
          rw [this] at htail
          simp only [Nat.sub_self] at htail
          rw [blocksPlan] at htail
          simp at htail
        · have hfull : min OTHER_SEGMENT_SIZE L = OTHER_SEGMENT_SIZE :=
            min_eq_left (by omega)
          rw [hfull] at htail
          exact ih _ _ (by omega)
            (by rw [Nat.add_mod, ha, Nat.mod_self]; simp) p htail

/-- Every chunk that `decryptRest` hands to the other-segment transform
fits inside the remainder of its block: the `debug_assert` condition
`len ≤ OTHER_SEGMENT_SIZE - block_offset`. -/
lemma restPlan_assert (L offset : Nat) :
    ∀ p ∈ restPlan L offset,
      p.1 ≤ OTHER_SEGMENT_SIZE - p.2 % OTHER_SEGMENT_SIZE := by
  intro p hp
  rw [restPlan] at hp
  by_cases ha : offset % OTHER_SEGMENT_SIZE = 0
  · rw [if_pos ha] at hp
    obtain ⟨h1, h2, h3⟩ := blocksPlan_mem L offset ha p hp
    rw [h3]
    simpa using h2
  · rw [if_neg ha] at hp
    rcases List.mem_cons.mp hp with hhead | htail
    · subst hhead
      simp only
      have : offset % OTHER_SEGMENT_SIZE < OTHER_SEGMENT_SIZE := Nat.mod_lt _ (by decide)
      exact le_trans (min_le_left _ _) le_rfl
    · by_cases hfit : L ≤ OTHER_SEGMENT_SIZE - offset % OTHER_SEGMENT_SIZE
      · have : min (OTHER_SEGMENT_SIZE - offset % OTHER_SEGMENT_SIZE) L = L :=
          min_eq_right hfit
        rw [this] at htail
        simp only [Nat.sub_self] at htail
        rw [blocksPlan] at htail
        simp at htail
      · have hfull : min (OTHER_SEGMENT_SIZE - offset % OTHER_SEGMENT_SIZE) L =
            OTHER_SEGMENT_SIZE - offset % OTHER_SEGMENT_SIZE := min_eq_left (by omega)
        rw [hfull] at htail
        obtain ⟨h1, h2, h3⟩ :=
          blocksPlan_mem _ _ (offset_add_compl_mod offset) p htail
        rw [h3]
        simpa using h2

/-! ### Concrete sample instances used by the witnesses -/

/-- A small concrete engine instance used to exercise the theorems. -/
def sampleEngine : QMC2RC4 Nat :=
  { gsk := fun idx seed h => idx * 31 + seed * 7 + h,
    hash := 5,
    key := [3, 1, 4, 1, 5],
    key_stream := List.range RC4_STREAM_CACHE_SIZE }

/-- A concrete `get_segment_key` collaborator stand-in. -/
def sampleGsk : Nat → Nat → Nat → Nat := fun idx seed h => idx * 31 + seed * 7 + h

/-- A concrete key-hash collaborator stand-in. -/
def sampleKeyHash : List Nat → Nat := fun key => key.foldl (fun a b => a + b) 0

/-- A concrete keystream-generator collaborator stand-in. -/
def sampleKsGen : List Nat → Nat → List Nat := fun _ len => List.range len

/-- The engine that `new` builds from the key `[2]` and the sample
collaborators. -/
def builtEngine : QMC2RC4 Nat :=
  { gsk := sampleGsk, hash := sampleKeyHash [2], key := [2],
    key_stream := sampleKsGen [2] RC4_STREAM_CACHE_SIZE }

/-! ### Claim theorems -/

/-- Claim C1: for every engine and every byte at absolute offset
`offset + i ≥ FIRST_SEGMENT_SIZE`, `decrypt` XORs that byte with the
keystream-cache entry `skip + ((offset+i) % OTHER_SEGMENT_SIZE)` where
`skip = skipOf c ((offset+i) / OTHER_SEGMENT_SIZE)` is derived from the
block id alone; the output byte depends only on those quantities. -/
theorem decrypt_other_segment_byte (c : QMC2RC4 H) (data : List Nat)
    (offset i : Nat) (hk : 0 < c.key.length) (hi : i < data.length)
    (ho : FIRST_SEGMENT_SIZE ≤ offset + i) :
    (decrypt c data offset).getD i 0 =
      data.getD i 0 ^^^
        c.key_stream.getD
          (skipOf c ((offset + i) / OTHER_SEGMENT_SIZE) +
            (offset + i) % OTHER_SEGMENT_SIZE) 0 := by
  rw [decrypt_getD _ _ _ _ hi, byteMask, if_neg (by omega), otherMask]

/-- Witness for C1 at a concrete engine, buffer and offset. -/
theorem decrypt_other_segment_byte_witness :
    0 < sampleEngine.key.length ∧ 0 < ([9] : List Nat).length ∧
      FIRST_SEGMENT_SIZE ≤ 5120 + 0 ∧
      (decrypt sampleEngine [9] 5120).getD 0 0 =
        ([9] : List Nat).getD 0 0 ^^^
          sampleEngine.key_stream.getD
            (skipOf sampleEngine ((5120 + 0) / OTHER_SEGMENT_SIZE) +
              (5120 + 0) % OTHER_SEGMENT_SIZE) 0 :=
  ⟨by decide, by decide, by decide,
    decrypt_other_segment_byte sampleEngine [9] 5120 0 (by decide) (by decide) (by decide)⟩

/-- Claim C2: for every engine built from a non-empty key and every byte at
absolute offset `offset + i < FIRST_SEGMENT_SIZE`, `decrypt` XORs that
byte with `key[gsk(o, key[o % n], hash) % n]`, a mask depending only on
the absolute offset, the selected key byte and the hash. -/
theorem decrypt_first_segment_byte (c : QMC2RC4 H) (data : List Nat)
    (offset i : Nat) (hk : 0 < c.key.length) (hi : i < data.length)
    (ho : offset + i < FIRST_SEGMENT_SIZE) :
    (decrypt c data offset).getD i 0 =
      data.getD i 0 ^^^
        c.key.getD
          (c.gsk (offset + i) (c.key.getD ((offset + i) % c.key.length) 0) c.hash %
            c.key.length) 0 := by
  rw [decrypt_getD _ _ _ _ hi, byteMask, if_pos ho, firstMask]

/-- Witness for C2 at a concrete engine, buffer and offset. -/
theorem decrypt_first_segment_byte_witness :
    0 < sampleEngine.key.length ∧ 0 < ([7] : List Nat).length ∧
      0 + 0 < FIRST_SEGMENT_SIZE ∧
      (decrypt sampleEngine [7] 0).getD 0 0 =
        ([7] : List Nat).getD 0 0 ^^^
          sampleEngine.key.getD
            (sampleEngine.gsk (0 + 0)
              (sampleEngine.key.getD ((0 + 0) % sampleEngine.key.length) 0)
              sampleEngine.hash % sampleEngine.key.length) 0 :=
  ⟨by decide, by decide, by decide,
    decrypt_first_segment_byte sampleEngine [7] 0 0 (by decide) (by decide) (by decide)⟩

/-- Claim C3: `decrypt` is involutive — applying it twice at the same
offset restores the buffer. -/
theorem decrypt_involutive (c : QMC2RC4 H) (data : List Nat) (offset : Nat)
    (hk : 0 < c.key.length) :
    decrypt c (decrypt c data offset) offset = data := by
  apply List.ext_getElem
  · rw [length_decrypt, length_decrypt]
  · intro n h1 h2
    have hlen : n < (decrypt c data offset).length := by
      rw [length_decrypt]
      exact h2
    rw [← getD_eq_get _ _ h1, ← getD_eq_get _ _ h2]
    rw [decrypt_getD _ _ _ _ hlen, decrypt_getD _ _ _ _ h2,
      Nat.xor_assoc, Nat.xor_self, Nat.xor_zero]

/-- Witness for C3 at a concrete engine, buffer and offset. -/
theorem decrypt_involutive_witness :
    0 < sampleEngine.key.length ∧
      decrypt sampleEngine (decrypt sampleEngine [10, 20] 126) 126 = [10, 20] :=
  ⟨by decide, decrypt_involutive sampleEngine [10, 20] 126 (by decide)⟩

/-- Claim C4: decomposition invariance — decrypting `a ++ b` in one call
equals decrypting `a` at `offset` and `b` at `offset + a.length`; since
the split point is arbitrary, this covers splits straddling the 128-byte
and 5120-byte boundaries, and iterating it covers any decomposition into
contiguous sub-slices. -/
theorem decrypt_decomposition (c : QMC2RC4 H) (a b : List Nat) (offset : Nat)
    (hk : 0 < c.key.length) :
    decrypt c (a ++ b) offset =
      decrypt c a offset ++ decrypt c b (offset + a.length) := by
  apply List.ext_getElem
  · simp [length_decrypt]
  · intro n h1 h2
    have hab : n < (a ++ b).length := by
      rw [length_decrypt] at h1
      exact h1
    rw [← getD_eq_get _ _ h1, ← getD_eq_get _ _ h2]
    rw [decrypt_getD _ _ _ _ hab]
    by_cases hn : n < a.length
    · rw [getD_append_left a b n hn,
        getD_append_left (decrypt c a offset) (decrypt c b (offset + a.length)) n
          (by rw [length_decrypt]; exact hn),
        decrypt_getD _ _ _ _ hn]
    · have hblen : n - a.length < b.length := by
        rw [List.length_append] at hab
        omega
      rw [getD_append_right a b n (by omega) hblen,
        getD_append_right (decrypt c a offset) (decrypt c b (offset + a.length)) n
          (by rw [length_decrypt]; omega)
          (by rw [length_decrypt, length_decrypt]; exact hblen),
        length_decrypt,
        decrypt_getD _ _ _ _ hblen]
      have harr : offset + a.length + (n - a.length) = offset + n := by omega
      rw [harr]

/-- Witness for C4 at a concrete engine and a split at the 128-byte
boundary. -/
theorem decrypt_decomposition_witness :
    0 < sampleEngine.key.length ∧
      decrypt sampleEngine ([1] ++ [2]) 127 =
        decrypt sampleEngine [1] 127 ++
          decrypt sampleEngine [2] (127 + ([1] : List Nat).length) :=
  ⟨by decide, decrypt_decomposition sampleEngine [1] [2] 127 (by decide)⟩

/-- Claim C5: construction rejects the empty key — `new` fails with `none`
instead of producing an engine. -/
theorem new_rejects_empty_key (g : Nat → Nat → H → Nat) (keyHash : List Nat → H)
    (ksGen : List Nat → Nat → List Nat) :
    new g keyHash ksGen [] = none := rfl

/-- Claim C6: keystream-cache reads never go out of bounds.  The chunking
plan `restPlan` records exactly the calls `decryptRest` makes to
`process_other_segment` (first conjunct); each per-block `skip` is masked
into `[0, 0x1FF]` (second conjunct); each chunk satisfies the asserted
`len ≤ OTHER_SEGMENT_SIZE - block_offset` (third conjunct); hence the
largest cache index `sk + block_offset + (len - 1)` read by a chunk stays
strictly below `RC4_STREAM_CACHE_SIZE = 5632` (fourth conjunct). -/
theorem decrypt_cache_reads_in_bounds {H : Type} :
    (∀ (c : QMC2RC4 H) (data : List Nat) (offset : Nat),
        decryptRest c data offset = applyPlan c data (restPlan data.length offset)) ∧
    (∀ (c : QMC2RC4 H) (id : Nat), skipOf c id ≤ 0x1FF) ∧
    (∀ (L offset : Nat), ∀ p ∈ restPlan L offset,
        p.1 ≤ OTHER_SEGMENT_SIZE - p.2 % OTHER_SEGMENT_SIZE) ∧
    (∀ (L offset : Nat) (p : Nat × Nat) (sk : Nat), p ∈ restPlan L offset →
        sk ≤ 0x1FF →
        sk + p.2 % OTHER_SEGMENT_SIZE + (p.1 - 1) < RC4_STREAM_CACHE_SIZE) := by
  refine ⟨decryptRest_eq_applyPlan, ?_, restPlan_assert, ?_⟩
  · intro c id
    exact Nat.and_le_right
  · intro L offset p sk hp hsk
    have hassert := restPlan_assert L offset p hp
    have hmod : p.2 % OTHER_SEGMENT_SIZE < OTHER_SEGMENT_SIZE :=
      Nat.mod_lt _ (by decide)
    simp only [OTHER_SEGMENT_SIZE, RC4_STREAM_CACHE_SIZE] at hassert hmod hsk ⊢
    omega

/-- Witness for C6 at a concrete plan entry and skip value. -/
theorem decrypt_cache_reads_in_bounds_witness :
    ((3, 130) : Nat × Nat) ∈ restPlan 3 130 ∧ (511 : Nat) ≤ 0x1FF ∧
      511 + (130 : Nat) % OTHER_SEGMENT_SIZE + ((3 : Nat) - 1) <
        RC4_STREAM_CACHE_SIZE := by
  have hmem : ((3, 130) : Nat × Nat) ∈ restPlan 3 130 := by
    simp [restPlan, blocksPlan, OTHER_SEGMENT_SIZE]
  exact ⟨hmem, by decide,
    (decrypt_cache_reads_in_bounds (H := Nat)).2.2.2 3 130 (3, 130) 511 hmem (by decide)⟩

/-- Claim C7: `decrypt` is total on its whole domain — it is a pure
function, a zero-length buffer is valid and left unchanged, and the
output always has the input's length. -/
theorem decrypt_total (c : QMC2RC4 H) (data : List Nat) (offset : Nat)
    (hk : 0 < c.key.length) :
    decrypt c ([] : List Nat) offset = [] ∧
      (decrypt c data offset).length = data.length :=
  ⟨List.length_eq_zero.mp (by rw [length_decrypt]; rfl),
    length_decrypt c data offset⟩

/-- Witness for C7 at a concrete engine, buffer and offset. -/
theorem decrypt_total_witness :
    0 < sampleEngine.key.length ∧
      (decrypt sampleEngine ([] : List Nat) 4000 = [] ∧
        (decrypt sampleEngine [8, 8, 8] 4000).length = ([8, 8, 8] : List Nat).length) :=
  ⟨by decide, decrypt_total sampleEngine [8, 8, 8] 4000 (by decide)⟩

/-- Claim C8: construction is deterministic — two engines built by `new`
from the same key (with the same collaborators) agree on the hash and the
keystream cache, and decrypt any buffer identically. -/
theorem new_deterministic (g : Nat → Nat → H → Nat) (keyHash : List Nat → H)
    (ksGen : List Nat → Nat → List Nat) (key data : List Nat) (offset : Nat)
    (e1 e2 : QMC2RC4 H)
    (h1 : new g keyHash ksGen key = some e1)
    (h2 : new g keyHash ksGen key = some e2) :
    e1.hash = e2.hash ∧ e1.key_stream = e2.key_stream ∧
      decrypt e1 data offset = decrypt e2 data offset := by
  have he : e1 = e2 := Option.some.inj (h1.symm.trans h2)
  subst he
  exact ⟨rfl, rfl, rfl⟩

/-- Witness for C8 at a concrete key and the sample collaborators. -/
theorem new_deterministic_witness :
    new sampleGsk sampleKeyHash sampleKsGen [2] = some builtEngine ∧
      (builtEngine.hash = builtEngine.hash ∧
        builtEngine.key_stream = builtEngine.key_stream ∧
        decrypt builtEngine [1, 2] 0 = decrypt builtEngine [1, 2] 0) :=
  ⟨rfl, new_deterministic sampleGsk sampleKeyHash sampleKsGen [2] [1, 2] 0
    builtEngine builtEngine rfl rfl⟩

/-- Claim C10: block-alignment invariant of `decrypt`.  Every chunk that
`decryptRest` processes is either block-aligned or the single unaligned
head chunk at the original offset (first conjunct); and every chunk of
the trailing while loop, entered at a block-aligned offset, is nonempty,
at most one block long, starts at a block boundary (block-local offset 0)
and touches exactly one block id (second conjunct). -/
theorem decrypt_block_loop_alignment :
    (∀ (L offset : Nat) (p : Nat × Nat), p ∈ restPlan L offset →
        p.2 % OTHER_SEGMENT_SIZE = 0 ∨
          (offset % OTHER_SEGMENT_SIZE ≠ 0 ∧
            p = (min (OTHER_SEGMENT_SIZE - offset % OTHER_SEGMENT_SIZE) L, offset))) ∧
    (∀ (L offset : Nat) (p : Nat × Nat), offset % OTHER_SEGMENT_SIZE = 0 →
        p ∈ blocksPlan L offset →
          0 < p.1 ∧ p.1 ≤ OTHER_SEGMENT_SIZE ∧ p.2 % OTHER_SEGMENT_SIZE = 0 ∧
            (p.2 + (p.1 - 1)) / OTHER_SEGMENT_SIZE = p.2 / OTHER_SEGMENT_SIZE) := by
  constructor
  · intro L offset p hp
    rw [restPlan] at hp
    by_cases ha : offset % OTHER_SEGMENT_SIZE = 0
    · rw [if_pos ha] at hp
      exact Or.inl (blocksPlan_mem L offset ha p hp).2.2
    · rw [if_neg ha] at hp
      rcases List.mem_cons.mp hp with hhead | htail
      · exact Or.inr ⟨ha, hhead⟩
      · by_cases hfit : L ≤ OTHER_SEGMENT_SIZE - offset % OTHER_SEGMENT_SIZE
        · have : min (OTHER_SEGMENT_SIZE - offset % OTHER_SEGMENT_SIZE) L = L :=
            min_eq_right hfit
          rw [this] at htail
          simp only [Nat.sub_self] at htail
          rw [blocksPlan] at htail
          simp at htail
        · have hfull : min (OTHER_SEGMENT_SIZE - offset % OTHER_SEGMENT_SIZE) L =
              OTHER_SEGMENT_SIZE - offset % OTHER_SEGMENT_SIZE := min_eq_left (by omega)
          rw [hfull] at htail
          exact Or.inl
            (blocksPlan_mem _ _ (offset_add_compl_mod offset) p htail).2.2
  · intro L offset p ha hp
    obtain ⟨h1, h2, h3⟩ := blocksPlan_mem L offset ha p hp
    refine ⟨h1, h2, h3, ?_⟩
    exact (block_arith p.2 (p.1 - 1) (by rw [h3]; omega)).1

/-- Witness for C10 at a concrete aligned plan entry. -/
theorem decrypt_block_loop_alignment_witness :
    (5120 : Nat) % OTHER_SEGMENT_SIZE = 0 ∧
      ((2, 5120) : Nat × Nat) ∈ blocksPlan 2 5120 ∧
      (0 < (2 : Nat) ∧ (2 : Nat) ≤ OTHER_SEGMENT_SIZE ∧
        (5120 : Nat) % OTHER_SEGMENT_SIZE = 0 ∧
        ((5120 : Nat) + ((2 : Nat) - 1)) / OTHER_SEGMENT_SIZE =
          (5120 : Nat) / OTHER_SEGMENT_SIZE) := by
  have hmem : ((2, 5120) : Nat × Nat) ∈ blocksPlan 2 5120 := by
    simp [blocksPlan, OTHER_SEGMENT_SIZE]
  exact ⟨by decide, hmem,
    decrypt_block_loop_alignment.2 2 5120 (2, 5120) (by decide) hmem⟩

end QMC2RC4
